import Mathlib

/-!
Verification of the structural diff engine of the picosat repository
(JSON/YAML side-by-side diff viewer).

The definitions below are a shallow embedding of the TypeScript sources:
  - `src/utils/diffTree.ts`   (buildJsonTree, compareNodes, the data model)
  - `src/components/ObjectDiffView.tsx` (diffTree memo, flatDiffRows, stats,
    minimap marker math, the "Files are identical" classification)
  - `src/App.tsx`             (validateJson)

Parsed documents are modelled by the inductive type `Json` (numbers as
integers; the claims under study do not depend on float formatting).
JavaScript `undefined` is modelled by `Option`, and a JS `Set`/`Map` by
lists with the same iteration-order semantics (insertion order, first
occurrence wins for key position, last occurrence wins for the value).
-/

inductive Json where
  | null
  | bool (b : Bool)
  | num (n : Int)
  | str (s : String)
  | arr (items : List Json)
  | obj (fields : List (String × Json))

inductive NodeType where
  | object
  | array
  | primitive
deriving DecidableEq

inductive DiffType where
  | added
  | removed
  | changed
  | unchanged
deriving DecidableEq

inductive RowType where
  | node
  | close
deriving DecidableEq

/-- `JsonNode` mirrors the `JsonNode` interface of `diffTree.ts`; the optional
`children` field is `Option (List JsonNode)`. -/
inductive JsonNode where
  | mk (key : String) (path : String) (value : Json) (type : NodeType)
      (depth : Nat) (children : Option (List JsonNode)) (isLast : Bool)

def JsonNode.key : JsonNode → String
  | .mk k _ _ _ _ _ _ => k

def JsonNode.path : JsonNode → String
  | .mk _ p _ _ _ _ _ => p

def JsonNode.value : JsonNode → Json
  | .mk _ _ v _ _ _ _ => v

def JsonNode.type : JsonNode → NodeType
  | .mk _ _ _ t _ _ _ => t

def JsonNode.depth : JsonNode → Nat
  | .mk _ _ _ _ d _ _ => d

def JsonNode.children : JsonNode → Option (List JsonNode)
  | .mk _ _ _ _ _ c _ => c

def JsonNode.isLast : JsonNode → Bool
  | .mk _ _ _ _ _ _ il => il

/-- `DiffNode` mirrors the `DiffNode` interface of `diffTree.ts`. -/
inductive DiffNode where
  | mk (path : String) (leftNode rightNode : Option JsonNode) (diffType : DiffType)
      (depth : Nat) (isCollapsible : Bool) (childDiffs : Option (List DiffNode))

def DiffNode.path : DiffNode → String
  | .mk p _ _ _ _ _ _ => p

def DiffNode.leftNode : DiffNode → Option JsonNode
  | .mk _ ln _ _ _ _ _ => ln

def DiffNode.rightNode : DiffNode → Option JsonNode
  | .mk _ _ rn _ _ _ _ => rn

def DiffNode.diffType : DiffNode → DiffType
  | .mk _ _ _ dt _ _ _ => dt

def DiffNode.depth : DiffNode → Nat
  | .mk _ _ _ _ d _ _ => d

def DiffNode.isCollapsible : DiffNode → Bool
  | .mk _ _ _ _ _ ic _ => ic

def DiffNode.childDiffs : DiffNode → Option (List DiffNode)
  | .mk _ _ _ _ _ _ cd => cd

/-- `FlatDiffRow` mirrors the `FlatDiffRow` interface of `diffTree.ts`. -/
structure FlatDiffRow where
  path : String
  diffType : DiffType
  rowType : RowType
deriving DecidableEq

/-- JSON.stringify escaping for the characters that matter to this model. -/
def escapeChars : List Char → List Char
  | [] => []
  | '"' :: rest => '\\' :: '"' :: escapeChars rest
  | '\\' :: rest => '\\' :: '\\' :: escapeChars rest
  | '\n' :: rest => '\\' :: 'n' :: escapeChars rest
  | '\t' :: rest => '\\' :: 't' :: escapeChars rest
  | '\r' :: rest => '\\' :: 'r' :: escapeChars rest
  | c :: rest => c :: escapeChars rest

def quoteString (s : String) : String :=
  "\"" ++ String.mk (escapeChars s.data) ++ "\""

mutual
/-- Model of `JSON.stringify` on parsed values, used by `compareNodes` for
primitive equality. -/
def jsonStringify : Json → String
  | .null => "null"
  | .bool true => "true"
  | .bool false => "false"
  | .num n => toString n
  | .str s => quoteString s
  | .arr items => "[" ++ stringifyItems items ++ "]"
  | .obj fields => "\x7b" ++ stringifyFields fields ++ "\x7d"
def stringifyItems : List Json → String
  | [] => ""
  | [v] => jsonStringify v
  | v :: rest => jsonStringify v ++ "," ++ stringifyItems rest
def stringifyFields : List (String × Json) → String
  | [] => ""
  | [(k, v)] => quoteString k ++ ":" ++ jsonStringify v
  | (k, v) :: rest => quoteString k ++ ":" ++ jsonStringify v ++ "," ++ stringifyFields rest
end

mutual
/-- `buildJsonTree` from `diffTree.ts`.  The two child-builder helpers render
the `value.map((item, idx) => ...)` / `entries.map(([k, v], idx) => ...)`
calls, threading the element index and the total length for `isLast`. -/
def buildJsonTree (value : Json) (key path : String) (depth : Nat) (isLast : Bool) : JsonNode :=
  match value with
  | .arr items =>
    JsonNode.mk key path value .array depth
      (some (buildArrayChildren items 0 items.length path depth)) isLast
  | .obj fields =>
    JsonNode.mk key path value .object depth
      (some (buildObjectChildren fields 0 fields.length path depth)) isLast
  | _ => JsonNode.mk key path value .primitive depth none isLast
def buildArrayChildren : List Json → Nat → Nat → String → Nat → List JsonNode
  | [], _, _, _, _ => []
  | item :: rest, idx, total, path, depth =>
    buildJsonTree item (toString idx) (path ++ "[" ++ toString idx ++ "]") (depth + 1)
      (decide (idx = total - 1)) ::
    buildArrayChildren rest (idx + 1) total path depth
def buildObjectChildren : List (String × Json) → Nat → Nat → String → Nat → List JsonNode
  | [], _, _, _, _ => []
  | (k, v) :: rest, idx, total, path, depth =>
    buildJsonTree v k (if path = "" then k else path ++ "." ++ k) (depth + 1)
      (decide (idx = total - 1)) ::
    buildObjectChildren rest (idx + 1) total path depth
end

/-- Lookup in the JS `Map` built from a children array: duplicate keys are
overwritten by later entries, so `get` returns the last child with that key. -/
def mapGet (cs : List JsonNode) (k : String) : Option JsonNode :=
  cs.reverse.find? (fun c => c.key == k)

/-- First-occurrence deduplication, the iteration-order semantics shared by a
JS `Map`'s key set and a JS `Set` built from a list. -/
def dedupFirstAux (seen : List String) : List String → List String
  | [] => []
  | x :: xs => if x ∈ seen then dedupFirstAux seen xs else x :: dedupFirstAux (x :: seen) xs

def dedupFirst (xs : List String) : List String := dedupFirstAux [] xs

/-- Key iteration order of `new Map(children.map((c) => [c.key, c]))`. -/
def mapKeys (cs : List JsonNode) : List String := dedupFirst (cs.map JsonNode.key)

/-- Child path computation of the container case of `compareNodes`:
array containers append `[key]`, objects append `.key` (bare key when the
parent path is the empty string). -/
def childPath (t : NodeType) (path k : String) : String :=
  if t = .array then path ++ "[" ++ k ++ "]"
  else if path = "" then k else path ++ "." ++ k

/-- `compareNodes` from `diffTree.ts`, case for case.  The
`allKeys.attach.map` renders the `for (const key of allKeys)` loop; the
`match h : _.children` expressions render `children?.map(...) ?? undefined`. -/
def compareNodes : Option JsonNode → Option JsonNode → String → Nat → DiffNode
  | none, some r, path, depth =>
    DiffNode.mk path none (some r) .added depth (decide (r.type ≠ .primitive))
      (match h : r.children with
       | none => none
       | some cs => some (cs.attach.map (fun c =>
           compareNodes none (some c.1) c.1.path (depth + 1))))
  | some l, none, path, depth =>
    DiffNode.mk path (some l) none .removed depth (decide (l.type ≠ .primitive))
      (match h : l.children with
       | none => none
       | some cs => some (cs.attach.map (fun c =>
           compareNodes (some c.1) none c.1.path (depth + 1))))
  | none, none, path, depth =>
    DiffNode.mk path none none .unchanged depth false none
  | some l, some r, path, depth =>
    if l.type ≠ r.type then
      DiffNode.mk path (some l) (some r) .changed depth false none
    else if l.type = .primitive then
      DiffNode.mk path (some l) (some r)
        (if jsonStringify l.value = jsonStringify r.value then .unchanged else .changed)
        depth false none
    else
      let lcs := l.children.getD []
      let rcs := r.children.getD []
      let allKeys := dedupFirst (mapKeys lcs ++ mapKeys rcs)
      let childDiffs := allKeys.attach.map (fun k =>
        compareNodes (mapGet lcs k.1) (mapGet rcs k.1) (childPath l.type path k.1) (depth + 1))
      DiffNode.mk path (some l) (some r)
        (if childDiffs.any (fun c => c.diffType ≠ .unchanged) then .changed else .unchanged)
        depth true (some childDiffs)
termination_by l r _ _ => sizeOf l + sizeOf r
decreasing_by
  · have h1 : sizeOf c.1 < sizeOf cs := List.sizeOf_lt_of_mem c.2
    cases r with
    | mk k p v t dep ch il =>
      simp [JsonNode.children] at h
      subst h
      simp <;> omega
  · have h1 : sizeOf c.1 < sizeOf cs := List.sizeOf_lt_of_mem c.2
    cases l with
    | mk k p v t dep ch il =>
      simp [JsonNode.children] at h
      subst h
      simp <;> omega
  · have hb : ∀ (n : JsonNode) (key : String),
        sizeOf (mapGet (n.children.getD []) key) < 1 + sizeOf n := by
      intro n key
      cases hm : mapGet (n.children.getD []) key with
      | none =>
        cases n with
        | mk k p v t dep ch il => simp <;> omega
      | some c =>
        have hc : c ∈ n.children.getD [] := by
          have := List.mem_of_find?_eq_some hm
          simpa using this
        cases n with
        | mk k p v t dep ch il =>
          cases ch with
          | none => simp [JsonNode.children] at hc
          | some cs =>
            simp [JsonNode.children] at hc
            have h1 : sizeOf c < sizeOf cs := List.sizeOf_lt_of_mem hc
            simp <;> omega
    have h1 := hb l k.1
    have h2 := hb r k.1
    simp at h1 h2 ⊢
    omega

/-- Fuel-indexed clone of `compareNodes`, definitionally structural so that
concrete diff trees can be evaluated by the kernel; `compareNodesFuel_eq`
below proves it agrees with `compareNodes` whenever the fuel is sufficient. -/
def compareNodesFuel : Nat → Option JsonNode → Option JsonNode → String → Nat → DiffNode
  | 0, _, _, path, depth => DiffNode.mk path none none .unchanged depth false none
  | fuel + 1, none, some r, path, depth =>
    DiffNode.mk path none (some r) .added depth (decide (r.type ≠ .primitive))
      (r.children.map (fun cs => cs.map (fun c =>
        compareNodesFuel fuel none (some c) c.path (depth + 1))))
  | fuel + 1, some l, none, path, depth =>
    DiffNode.mk path (some l) none .removed depth (decide (l.type ≠ .primitive))
      (l.children.map (fun cs => cs.map (fun c =>
        compareNodesFuel fuel (some c) none c.path (depth + 1))))
  | _ + 1, none, none, path, depth =>
    DiffNode.mk path none none .unchanged depth false none
  | fuel + 1, some l, some r, path, depth =>
    if l.type ≠ r.type then
      DiffNode.mk path (some l) (some r) .changed depth false none
    else if l.type = .primitive then
      DiffNode.mk path (some l) (some r)
        (if jsonStringify l.value = jsonStringify r.value then .unchanged else .changed)
        depth false none
    else
      let lcs := l.children.getD []
      let rcs := r.children.getD []
      let allKeys := dedupFirst (mapKeys lcs ++ mapKeys rcs)
      let childDiffs := allKeys.map (fun k =>
        compareNodesFuel fuel (mapGet lcs k) (mapGet rcs k) (childPath l.type path k) (depth + 1))
      DiffNode.mk path (some l) (some r)
        (if childDiffs.any (fun c => c.diffType ≠ .unchanged) then .changed else .unchanged)
        depth true (some childDiffs)

mutual
/-- The `flatten` closure inside the `flatDiffRows` memo of
`ObjectDiffView.tsx`; the collapse set is modelled as a list of paths. -/
def flattenNode (collapsed : List String) : DiffNode → List FlatDiffRow
  | .mk p _ _ dt _ ic cd =>
    let isCollapsedNode := collapsed.contains p
    ⟨p, dt, .node⟩ ::
      ((if !isCollapsedNode then flattenKids collapsed cd else []) ++
       (if !isCollapsedNode && ic then [⟨p, dt, .close⟩] else []))
def flattenKids (collapsed : List String) : Option (List DiffNode) → List FlatDiffRow
  | none => []
  | some cs => flattenList collapsed cs
def flattenList (collapsed : List String) : List DiffNode → List FlatDiffRow
  | [] => []
  | c :: cs => flattenNode collapsed c ++ flattenList collapsed cs
end

/-- `flatDiffRows` of `ObjectDiffView.tsx`, for a present diff tree. -/
def flatDiffRows (tree : DiffNode) (collapsed : List String) : List FlatDiffRow :=
  flattenNode collapsed tree

/-- The `{added, removed, changed}` stats record of `ObjectDiffView.tsx`. -/
structure Stats where
  added : Nat
  removed : Nat
  changed : Nat
deriving DecidableEq

def addStats (a b : Stats) : Stats :=
  ⟨a.added + b.added, a.removed + b.removed, a.changed + b.changed⟩

/-- Contribution of a single node to the stats walk: the `if/else if` chain
of the `count` closure (`!node.childDiffs` is true only for an undefined
`childDiffs`; an empty array is truthy in JS). -/
def statsSelf (node : DiffNode) : Stats :=
  if node.diffType = .added ∧ node.childDiffs.isNone then ⟨1, 0, 0⟩
  else if node.diffType = .removed ∧ node.childDiffs.isNone then ⟨0, 1, 0⟩
  else if node.diffType = .changed ∧ node.isCollapsible = false then ⟨0, 0, 1⟩
  else ⟨0, 0, 0⟩

mutual
/-- The `stats` memo of `ObjectDiffView.tsx`: a full-tree walk accumulating
`statsSelf`, independent of the collapse set. -/
def stats : DiffNode → Stats
  | .mk p ln rn dt d ic cd =>
    addStats (statsSelf (.mk p ln rn dt d ic cd)) (statsKids cd)
def statsKids : Option (List DiffNode) → Stats
  | none => ⟨0, 0, 0⟩
  | some cs => statsList cs
def statsList : List DiffNode → Stats
  | [] => ⟨0, 0, 0⟩
  | c :: cs => addStats (stats c) (statsList cs)
end

/-- The "Files are identical" classification of `ObjectDiffView.tsx`
(`stats.added === 0 && stats.removed === 0 && stats.changed === 0`). -/
def rendersIdentical (s : Stats) : Bool :=
  s.added == 0 && s.removed == 0 && s.changed == 0

mutual
/-- Pre-order listing of a diff tree's nodes (the node followed by the nodes
of its `childDiffs`, in order); used to state counting properties. -/
def allNodes : DiffNode → List DiffNode
  | .mk p ln rn dt d ic cd => .mk p ln rn dt d ic cd :: allNodesKids cd
def allNodesKids : Option (List DiffNode) → List DiffNode
  | none => []
  | some cs => allNodesList cs
def allNodesList : List DiffNode → List DiffNode
  | [] => []
  | c :: cs => allNodes c ++ allNodesList cs
end

mutual
/-- Number of nodes of a diff tree. -/
def nodeCount : DiffNode → Nat
  | .mk _ _ _ _ _ _ cd => 1 + nodeCountKids cd
def nodeCountKids : Option (List DiffNode) → Nat
  | none => 0
  | some cs => nodeCountList cs
def nodeCountList : List DiffNode → Nat
  | [] => 0
  | c :: cs => nodeCount c + nodeCountList cs
end

mutual
/-- Number of nodes with `isCollapsible = true` in a diff tree. -/
def collapsibleCount : DiffNode → Nat
  | .mk _ _ _ _ _ ic cd => (if ic then 1 else 0) + collapsibleCountKids cd
def collapsibleCountKids : Option (List DiffNode) → Nat
  | none => 0
  | some cs => collapsibleCountList cs
def collapsibleCountList : List DiffNode → Nat
  | [] => 0
  | c :: cs => collapsibleCount c + collapsibleCountList cs
end

mutual
/-- Modelled from the spec: the fully-expanded flattening it describes —
"emit a `node` row for the current node; recursively flatten each child in
order; then, if `isCollapsible`, emit one `close` row for the same path".
Stated separately from `flattenNode` so that the flatten round-trip claim is
a genuine refinement. -/
def preorderRows : DiffNode → List FlatDiffRow
  | .mk p _ _ dt _ ic cd =>
    ⟨p, dt, .node⟩ :: (preorderRowsKids cd ++ (if ic then [⟨p, dt, .close⟩] else []))
def preorderRowsKids : Option (List DiffNode) → List FlatDiffRow
  | none => []
  | some cs => preorderRowsList cs
def preorderRowsList : List DiffNode → List FlatDiffRow
  | [] => []
  | c :: cs => preorderRows c ++ preorderRowsList cs
end

/-- The added↔removed direction swap on diff classifications. -/
def swapType : DiffType → DiffType
  | .added => .removed
  | .removed => .added
  | .changed => .changed
  | .unchanged => .unchanged

mutual
/-- Swap `added`↔`removed` and `leftNode`↔`rightNode` at every node; the
transformation under which the spec asserts `compare` is symmetric. -/
def swapDiff : DiffNode → DiffNode
  | .mk p ln rn dt d ic cd => .mk p rn ln (swapType dt) d ic (swapDiffKids cd)
def swapDiffKids : Option (List DiffNode) → Option (List DiffNode)
  | none => none
  | some cs => some (swapDiffList cs)
def swapDiffList : List DiffNode → List DiffNode
  | [] => []
  | c :: cs => swapDiff c :: swapDiffList cs
end

mutual
/-- The symmetry that actually holds for `compareNodes`: the two trees agree
node for node after the added↔removed / left↔right swap, with each node's
`childDiffs` sequence agreeing up to a permutation. -/
inductive SwapPerm : DiffNode → DiffNode → Prop where
  | mk (p : String) (ln rn : Option JsonNode) (dt : DiffType) (d : Nat) (ic : Bool)
      (cd cd' : Option (List DiffNode)) :
      SwapKids cd cd' →
      SwapPerm (.mk p ln rn dt d ic cd) (.mk p rn ln (swapType dt) d ic cd')
inductive SwapKids : Option (List DiffNode) → Option (List DiffNode) → Prop where
  | none : SwapKids none none
  | some (xs ys zs : List DiffNode) :
      SwapEach xs zs → zs.Perm ys → SwapKids (some xs) (some ys)
inductive SwapEach : List DiffNode → List DiffNode → Prop where
  | nil : SwapEach [] []
  | cons (x y : DiffNode) (xs ys : List DiffNode) :
      SwapPerm x y → SwapEach xs ys → SwapEach (x :: xs) (y :: ys)
end

mutual
/-- Every node of a diff tree carries `diffType = unchanged`. -/
def allUnchanged : DiffNode → Bool
  | .mk _ _ _ dt _ _ cd => dt == .unchanged && allUnchangedKids cd
def allUnchangedKids : Option (List DiffNode) → Bool
  | none => true
  | some cs => allUnchangedList cs
def allUnchangedList : List DiffNode → Bool
  | [] => true
  | c :: cs => allUnchanged c && allUnchangedList cs
end

/-- One minimap marker band (percentages of the minimap height). -/
structure Marker where
  top : ℚ
  height : ℚ
deriving DecidableEq

/-- The minimap marker computation of `ObjectDiffView.tsx`: the row list is
mapped with its index; `unchanged` rows yield no marker (`return null`),
every other row yields a band at `top = idx / n * 100` percent with
`height = max (100 / n) 2` percent, `n` being the full row-list length. -/
def minimapMarkers (rows : List FlatDiffRow) : List (Option Marker) :=
  rows.enum.map (fun e =>
    if e.2.diffType = .unchanged then none
    else some ⟨((e.1 : ℚ) / (rows.length : ℚ)) * 100, max (100 / (rows.length : ℚ)) 2⟩)

/-- The `{ valid, error, parsed }` record of the parse contract; `parsed` is
a JS value, so an absent document and a parsed `null` scalar are both the JS
value `null` (`Json.null`). -/
structure ParseResult where
  valid : Bool
  error : Option String
  parsed : Json

/-- JS truthiness of a parsed value: `null`, `false`, `0` and the empty
string are falsy; every object and array is truthy. -/
def isTruthy : Json → Bool
  | .null => false
  | .bool b => b
  | .num n => n != 0
  | .str s => s != ""
  | .arr _ => true
  | .obj _ => true

/-- The `diffTree` memo of `ObjectDiffView.tsx`: no tree when either side is
invalid or both parsed values are falsy; each side's tree is built only when
its parsed value is truthy (`leftValidation.parsed ? buildJsonTree(...) :
undefined`). -/
def diffTree (leftValidation rightValidation : ParseResult) : Option DiffNode :=
  if !leftValidation.valid || !rightValidation.valid then none
  else if !isTruthy leftValidation.parsed && !isTruthy rightValidation.parsed then none
  else some (compareNodes
    (if isTruthy leftValidation.parsed then
      some (buildJsonTree leftValidation.parsed "root" "" 0 true) else none)
    (if isTruthy rightValidation.parsed then
      some (buildJsonTree rightValidation.parsed "root" "" 0 true) else none)
    "root" 0)

/-- The character-level effect of `json.replace(/\\"/g, '"')`: every
backslash-quote pair is replaced, left to right, by a plain double quote. -/
def unescapeChars : List Char → List Char
  | '\\' :: '"' :: rest => '"' :: unescapeChars rest
  | c :: rest => c :: unescapeChars rest
  | [] => []

def unescapeQuotes (s : String) : String := String.mk (unescapeChars s.data)

def jsWhitespace (c : Char) : Bool :=
  c == ' ' || c == '\t' || c == '\n' || c == '\r' || c == '\x0b' || c == '\x0c'

/-- `!json.trim()`: the text consists of whitespace only. -/
def jsBlank (s : String) : Bool := s.data.all jsWhitespace

/-- `validateJson` from `App.tsx`, parameterised by the external `JSON.parse`
(`jsonParse` returns the parsed value or the thrown error's message).  Blank
input is valid with `parsed = null`; a failed parse is retried on the text
with escaped quotes unescaped; if both attempts fail the first error is
reported. -/
def validateJson (jsonParse : String → Except String Json) (json : String) : ParseResult :=
  if jsBlank json then ⟨true, none, .null⟩
  else
    match jsonParse json with
    | .ok parsed => ⟨true, none, parsed⟩
    | .error e =>
      match jsonParse (unescapeQuotes json) with
      | .ok parsed => ⟨true, none, parsed⟩
      | .error _ => ⟨false, some e, .null⟩

/-- Concrete object node with child keys `a`, `c`, used to instantiate the
container-ordering theorems. -/
def exNodeL : JsonNode :=
  JsonNode.mk "root" "" (Json.obj [("a", .num 1), ("c", .num 3)]) .object 0
    (some [JsonNode.mk "a" "a" (Json.num 1) .primitive 1 none false,
           JsonNode.mk "c" "c" (Json.num 3) .primitive 1 none true]) true

/-- Concrete object node with child keys `b`, `c`. -/
def exNodeR : JsonNode :=
  JsonNode.mk "root" "" (Json.obj [("b", .num 2), ("c", .num 4)]) .object 0
    (some [JsonNode.mk "b" "b" (Json.num 2) .primitive 1 none false,
           JsonNode.mk "c" "c" (Json.num 4) .primitive 1 none true]) true

/-- Parsed document whose keys collide once flattened into dotted paths:
the top-level field `a.b` and the nested field `b` of the object `a` both
produce the path `root.a.b` in a both-present diff. -/
def dupJson : Json := Json.obj [("a.b", .num 1), ("a", .obj [("b", .num 1)])]

/-- A node the stats walk counts as `added`: `diffType === 'added'` with
`childDiffs` undefined (an empty `childDiffs` array is truthy in JS and is
not counted). -/
def isAddedLeaf (n : DiffNode) : Bool := n.diffType == .added && n.childDiffs.isNone

/-- A node the stats walk counts as `removed`. -/
def isRemovedLeaf (n : DiffNode) : Bool := n.diffType == .removed && n.childDiffs.isNone

/-- A node the stats walk counts as `changed`: `diffType === 'changed'` and
not collapsible. -/
def isChangedLeaf (n : DiffNode) : Bool := n.diffType == .changed && !n.isCollapsible

/-! ### Shared lemmas about `compareNodes` -/

theorem jsonNode_sizeOf_pos (n : JsonNode) : 1 ≤ sizeOf n := by
  cases n; simp

theorem sizeOf_lt_of_mem_children {c : JsonNode} {cs : List JsonNode} {r : JsonNode}
    (h : r.children = some cs) (hm : c ∈ cs) : sizeOf c < sizeOf r := by
  have h1 : sizeOf c < sizeOf cs := List.sizeOf_lt_of_mem hm
  cases r with
  | mk k p v t d ch il =>
    simp [JsonNode.children] at h
    subst h
    simp
    omega

theorem mapGet_mem {cs : List JsonNode} {k : String} {c : JsonNode}
    (h : mapGet cs k = some c) : c ∈ cs := by
  have := List.mem_of_find?_eq_some h
  simpa using this

theorem sizeOf_mapGet_lt (n : JsonNode) (k : String) :
    sizeOf (mapGet (n.children.getD []) k) < sizeOf (some n) := by
  cases hm : mapGet (n.children.getD []) k with
  | none =>
    have := jsonNode_sizeOf_pos n
    simp
    omega
  | some c =>
    have hc : c ∈ n.children.getD [] := mapGet_mem hm
    cases hch : n.children with
    | none => rw [hch] at hc; simp at hc
    | some cs =>
      rw [hch] at hc
      simp at hc
      have := sizeOf_lt_of_mem_children hch hc
      simp
      omega

theorem sizeOf_option_pos (l : Option JsonNode) : 1 ≤ sizeOf l := by
  cases l with
  | none => simp
  | some x => simp

theorem compareNodes_none_none (p : String) (d : Nat) :
    compareNodes none none p d = DiffNode.mk p none none .unchanged d false none := by
  simp [compareNodes]

theorem compareNodes_none_some (r : JsonNode) (p : String) (d : Nat) :
    compareNodes none (some r) p d =
      DiffNode.mk p none (some r) .added d (decide (r.type ≠ .primitive))
        (r.children.map (fun cs => cs.map (fun c =>
          compareNodes none (some c) c.path (d + 1)))) := by
  rw [compareNodes]
  cases h : r.children with
  | none => simp
  | some cs =>
    simp [List.attach, List.attachWith, List.map_pmap]

theorem compareNodes_some_none (l : JsonNode) (p : String) (d : Nat) :
    compareNodes (some l) none p d =
      DiffNode.mk p (some l) none .removed d (decide (l.type ≠ .primitive))
        (l.children.map (fun cs => cs.map (fun c =>
          compareNodes (some c) none c.path (d + 1)))) := by
  rw [compareNodes]
  cases h : l.children with
  | none => simp
  | some cs =>
    simp [List.attach, List.attachWith, List.map_pmap]

theorem compareNodes_type_mismatch (l r : JsonNode) (p : String) (d : Nat)
    (ht : l.type ≠ r.type) :
    compareNodes (some l) (some r) p d =
      DiffNode.mk p (some l) (some r) .changed d false none := by
  rw [compareNodes]
  rw [if_pos ht]

theorem compareNodes_primitive (l r : JsonNode) (p : String) (d : Nat)
    (ht : l.type = r.type) (hp : l.type = .primitive) :
    compareNodes (some l) (some r) p d =
      DiffNode.mk p (some l) (some r)
        (if jsonStringify l.value = jsonStringify r.value then .unchanged else .changed)
        d false none := by
  rw [compareNodes]
  rw [if_neg (fun hne => hne ht), if_pos hp]

theorem compareNodes_container (l r : JsonNode) (p : String) (d : Nat)
    (ht : l.type = r.type) (hp : l.type ≠ .primitive) :
    compareNodes (some l) (some r) p d =
      DiffNode.mk p (some l) (some r)
        (if ((dedupFirst (mapKeys (l.children.getD []) ++ mapKeys (r.children.getD []))).map
              (fun k => compareNodes (mapGet (l.children.getD []) k)
                (mapGet (r.children.getD []) k) (childPath l.type p k) (d + 1))).any
            (fun c => c.diffType ≠ .unchanged)
          then .changed else .unchanged)
        d true
        (some ((dedupFirst (mapKeys (l.children.getD []) ++ mapKeys (r.children.getD []))).map
          (fun k => compareNodes (mapGet (l.children.getD []) k)
            (mapGet (r.children.getD []) k) (childPath l.type p k) (d + 1)))) := by
  rw [compareNodes]
  rw [if_neg (fun hne => hne ht)]
  rw [if_neg hp]
  dsimp only
  rw [List.attach_map_val (dedupFirst (mapKeys (l.children.getD []) ++ mapKeys (r.children.getD [])))
    (fun k => compareNodes (mapGet (l.children.getD []) k) (mapGet (r.children.getD []) k)
      (childPath l.type p k) (d + 1))]

theorem compareNodesFuel_eq :
    ∀ (fuel : Nat) (l r : Option JsonNode) (p : String) (d : Nat),
      sizeOf l + sizeOf r ≤ fuel → compareNodesFuel fuel l r p d = compareNodes l r p d := by
  intro fuel
  induction fuel with
  | zero =>
    intro l r p d h
    have h1 := sizeOf_option_pos l
    have h2 := sizeOf_option_pos r
    omega
  | succ fuel ih =>
    intro l r p d h
    match l, r with
    | none, none => rw [compareNodes_none_none]; rfl
    | none, some r =>
      rw [compareNodes_none_some, compareNodesFuel]
      congr 1
      cases hc : r.children with
      | none => rfl
      | some cs =>
        simp only [Option.map]
        congr 1
        apply List.map_congr_left
        intro c hm
        apply ih
        have hlt : sizeOf c < sizeOf r := sizeOf_lt_of_mem_children hc hm
        simp at h ⊢
        omega
    | some l, none =>
      rw [compareNodes_some_none, compareNodesFuel]
      congr 1
      cases hc : l.children with
      | none => rfl
      | some cs =>
        simp only [Option.map]
        congr 1
        apply List.map_congr_left
        intro c hm
        apply ih
        have hlt : sizeOf c < sizeOf l := sizeOf_lt_of_mem_children hc hm
        simp at h ⊢
        omega
    | some l, some r =>
      by_cases ht : l.type = r.type
      · by_cases hp : l.type = .primitive
        · rw [compareNodes_primitive l r p d ht hp]
          rw [compareNodesFuel]
          rw [if_neg (fun hne => hne ht), if_pos hp]
        · have hmaps : (dedupFirst (mapKeys (l.children.getD []) ++ mapKeys (r.children.getD []))).map
              (fun k => compareNodesFuel fuel (mapGet (l.children.getD []) k)
                (mapGet (r.children.getD []) k) (childPath l.type p k) (d + 1)) =
              (dedupFirst (mapKeys (l.children.getD []) ++ mapKeys (r.children.getD []))).map
              (fun k => compareNodes (mapGet (l.children.getD []) k)
                (mapGet (r.children.getD []) k) (childPath l.type p k) (d + 1)) := by
            apply List.map_congr_left
            intro k hk
            apply ih
            have h1 := sizeOf_mapGet_lt l k
            have h2 := sizeOf_mapGet_lt r k
            simp at h1 h2 h ⊢
            omega
          rw [compareNodes_container l r p d ht hp]
          rw [compareNodesFuel]
          rw [if_neg (fun hne => hne ht), if_neg hp]
          simp only
          rw [hmaps]
      · rw [compareNodes_type_mismatch l r p d ht]
        rw [compareNodesFuel, if_pos ht]

/-- Rewriting a concrete `compareNodes` application into its fuel-indexed
clone, which the kernel can evaluate. -/
theorem compareNodes_eval (l r : Option JsonNode) (p : String) (d : Nat) :
    compareNodes l r p d = compareNodesFuel (sizeOf l + sizeOf r) l r p d :=
  (compareNodesFuel_eq _ _ _ _ _ le_rfl).symm

/-! ### Lemmas about the key-union iteration order -/

theorem mem_dedupFirstAux (a : String) :
    ∀ (xs seen : List String), a ∈ dedupFirstAux seen xs ↔ a ∈ xs ∧ a ∉ seen := by
  intro xs
  induction xs with
  | nil => intro seen; simp [dedupFirstAux]
  | cons x xs ih =>
    intro seen
    by_cases hx : x ∈ seen
    · rw [dedupFirstAux, if_pos hx, ih seen]
      simp only [List.mem_cons]
      by_cases hax : a = x
      · subst hax; simp [hx]
      · simp [hax]
    · rw [dedupFirstAux, if_neg hx]
      simp only [List.mem_cons, ih (x :: seen), List.mem_cons]
      by_cases hax : a = x
      · subst hax; simp [hx]
      · simp [hax]

theorem nodup_dedupFirstAux :
    ∀ (xs seen : List String), (dedupFirstAux seen xs).Nodup := by
  intro xs
  induction xs with
  | nil => intro seen; simp [dedupFirstAux]
  | cons x xs ih =>
    intro seen
    by_cases hx : x ∈ seen
    · rw [dedupFirstAux, if_pos hx]; exact ih seen
    · rw [dedupFirstAux, if_neg hx]
      refine List.nodup_cons.2 ⟨fun hm => ?_, ih (x :: seen)⟩
      have := (mem_dedupFirstAux x xs (x :: seen)).1 hm
      exact this.2 (List.mem_cons_self x seen)

theorem dedupFirstAux_congr :
    ∀ (xs s₁ s₂ : List String), (∀ a, a ∈ s₁ ↔ a ∈ s₂) →
      dedupFirstAux s₁ xs = dedupFirstAux s₂ xs := by
  intro xs
  induction xs with
  | nil => intro s₁ s₂ _; rfl
  | cons x xs ih =>
    intro s₁ s₂ hmem
    by_cases hx : x ∈ s₁
    · rw [dedupFirstAux, if_pos hx, dedupFirstAux, if_pos ((hmem x).1 hx)]
      exact ih s₁ s₂ hmem
    · rw [dedupFirstAux, if_neg hx, dedupFirstAux, if_neg (fun h => hx ((hmem x).2 h))]
      refine congrArg (x :: ·) (ih (x :: s₁) (x :: s₂) fun a => ?_)
      simp only [List.mem_cons]
      exact or_congr Iff.rfl (hmem a)

theorem dedupFirstAux_append :
    ∀ (xs ys seen : List String),
      dedupFirstAux seen (xs ++ ys) = dedupFirstAux seen xs ++ dedupFirstAux (xs ++ seen) ys := by
  intro xs
  induction xs with
  | nil => intro ys seen; simp [dedupFirstAux]
  | cons x xs ih =>
    intro ys seen
    by_cases hx : x ∈ seen
    · rw [List.cons_append, dedupFirstAux, if_pos hx, dedupFirstAux, if_pos hx, ih]
      refine congrArg (dedupFirstAux seen xs ++ ·) (dedupFirstAux_congr ys _ _ fun a => ?_)
      simp only [List.mem_append, List.cons_append, List.mem_cons]
      by_cases hax : a = x
      · subst hax; simp [hx]
      · simp [hax]
    · rw [List.cons_append, dedupFirstAux, if_neg hx, dedupFirstAux, if_neg hx, ih, List.cons_append]
      refine congrArg (x :: ·) (congrArg (dedupFirstAux (x :: seen) xs ++ ·)
        (dedupFirstAux_congr ys _ _ fun a => ?_))
      simp only [List.mem_append, List.mem_cons, List.cons_append]
      tauto

theorem dedupFirstAux_of_nodup :
    ∀ (ys seen : List String), ys.Nodup →
      dedupFirstAux seen ys = ys.filter (fun y => y ∉ seen) := by
  intro ys
  induction ys with
  | nil => intro seen _; rfl
  | cons y ys ih =>
    intro seen hnd
    have hy : y ∉ ys := (List.nodup_cons.1 hnd).1
    have hys : ys.Nodup := (List.nodup_cons.1 hnd).2
    by_cases hseen : y ∈ seen
    · rw [dedupFirstAux, if_pos hseen, ih seen hys]
      rw [List.filter_cons_of_neg (by simpa using hseen)]
    · rw [dedupFirstAux, if_neg hseen, ih (y :: seen) hys]
      rw [List.filter_cons_of_pos (by simpa using hseen)]
      refine congrArg (y :: ·) (List.filter_congr fun a ha => ?_)
      have hay : a ≠ y := fun h => hy (h ▸ ha)
      simp [hay, List.mem_cons]

theorem dedupFirst_of_nodup (ys : List String) (h : ys.Nodup) : dedupFirst ys = ys := by
  rw [dedupFirst, dedupFirstAux_of_nodup ys [] h]
  exact List.filter_eq_self.2 (fun a _ => by simp)

theorem mem_dedupFirst (a : String) (xs : List String) : a ∈ dedupFirst xs ↔ a ∈ xs := by
  rw [dedupFirst, mem_dedupFirstAux]
  simp

theorem nodup_dedupFirst (xs : List String) : (dedupFirst xs).Nodup :=
  nodup_dedupFirstAux xs []

theorem dedupFirst_union_split (lkeys rkeys : List String)
    (hl : lkeys.Nodup) (hr : rkeys.Nodup) :
    dedupFirst (lkeys ++ rkeys) = lkeys ++ rkeys.filter (fun k => k ∉ lkeys) := by
  rw [dedupFirst, dedupFirstAux_append]
  rw [show dedupFirstAux [] lkeys = dedupFirst lkeys from rfl, dedupFirst_of_nodup lkeys hl]
  rw [List.append_nil, dedupFirstAux_of_nodup rkeys lkeys hr]

theorem compareNodes_path (l r : Option JsonNode) (p : String) (d : Nat) :
    (compareNodes l r p d).path = p := by
  match l, r with
  | none, none => rw [compareNodes_none_none]; rfl
  | none, some r => rw [compareNodes_none_some]; rfl
  | some l, none => rw [compareNodes_some_none]; rfl
  | some l, some r =>
    by_cases ht : l.type = r.type
    · by_cases hp : l.type = .primitive
      · rw [compareNodes_primitive l r p d ht hp]; rfl
      · rw [compareNodes_container l r p d ht hp]; rfl
    · rw [compareNodes_type_mismatch l r p d ht]; rfl

theorem compareNodes_depth (l r : Option JsonNode) (p : String) (d : Nat) :
    (compareNodes l r p d).depth = d := by
  match l, r with
  | none, none => rw [compareNodes_none_none]; rfl
  | none, some r => rw [compareNodes_none_some]; rfl
  | some l, none => rw [compareNodes_some_none]; rfl
  | some l, some r =>
    by_cases ht : l.type = r.type
    · by_cases hp : l.type = .primitive
      · rw [compareNodes_primitive l r p d ht hp]; rfl
      · rw [compareNodes_container l r p d ht hp]; rfl
    · rw [compareNodes_type_mismatch l r p d ht]; rfl

/-! ### C1: key-union iteration order of the container case -/

/-- C1: for same-kind container nodes, `compareNodes` iterates the union of
child keys in left-iteration-order first, followed by the right-only keys in
right iteration order, and `childDiffs` is exactly the comparison of the two
sides' children along that key sequence (neither alphabetical nor
right-biased). -/
theorem c1_container_union_order (l r : JsonNode) (p : String) (d : Nat)
    (ht : l.type = r.type) (hp : l.type ≠ .primitive)
    (hl : ((l.children.getD []).map JsonNode.key).Nodup)
    (hr : ((r.children.getD []).map JsonNode.key).Nodup) :
    (compareNodes (some l) (some r) p d).childDiffs =
      some ((((l.children.getD []).map JsonNode.key) ++
             (((r.children.getD []).map JsonNode.key).filter
               (fun k => k ∉ (l.children.getD []).map JsonNode.key))).map
        (fun k => compareNodes (mapGet (l.children.getD []) k)
          (mapGet (r.children.getD []) k) (childPath l.type p k) (d + 1))) := by
  rw [compareNodes_container l r p d ht hp]
  rw [DiffNode.childDiffs]
  rw [mapKeys, mapKeys, dedupFirst_of_nodup _ hl, dedupFirst_of_nodup _ hr]
  rw [dedupFirst_union_split _ _ hl hr]

/-- Closed instance of `c1_container_union_order` at the concrete container
pair with child keys `[a, c]` and `[b, c]`. -/
theorem c1_container_union_order_witness :
    (exNodeL.type = exNodeR.type ∧ exNodeL.type ≠ .primitive ∧
     ((exNodeL.children.getD []).map JsonNode.key).Nodup ∧
     ((exNodeR.children.getD []).map JsonNode.key).Nodup) ∧
    (compareNodes (some exNodeL) (some exNodeR) "root" 0).childDiffs =
      some ((((exNodeL.children.getD []).map JsonNode.key) ++
             (((exNodeR.children.getD []).map JsonNode.key).filter
               (fun k => k ∉ (exNodeL.children.getD []).map JsonNode.key))).map
        (fun k => compareNodes (mapGet (exNodeL.children.getD []) k)
          (mapGet (exNodeR.children.getD []) k) (childPath exNodeL.type "root" k) (0 + 1))) :=
  ⟨⟨by decide, by decide, by decide, by decide⟩,
   c1_container_union_order exNodeL exNodeR "root" 0 (by decide) (by decide)
     (by decide) (by decide)⟩

/-! ### C6: diff paths are not unique identifiers -/

/-- C6 counterexample: comparing the document
`\x7b"a.b": 1, "a": \x7b"b": 1\x7d\x7d` against itself yields two distinct
DiffNodes (one at depth 1, one at depth 2) whose `path` is the same string
`root.a.b`, so `path` does not uniquely identify a node of the diff tree. -/
theorem c6_counterexample :
    ((allNodes (compareNodes (some (buildJsonTree dupJson "root" "" 0 true))
        (some (buildJsonTree dupJson "root" "" 0 true)) "root" 0)).map
      (fun n => (n.path, n.depth))).count ("root.a.b", 1) = 1 ∧
    ((allNodes (compareNodes (some (buildJsonTree dupJson "root" "" 0 true))
        (some (buildJsonTree dupJson "root" "" 0 true)) "root" 0)).map
      (fun n => (n.path, n.depth))).count ("root.a.b", 2) = 1 := by
  rw [compareNodes_eval]
  exact ⟨by decide, by decide⟩

/-- C6 amended: the paths of a diff node's children follow two regimes —
in the one-sided (`added`/`removed`) cases every child diff carries the
underlying `JsonNode`'s own path, while in the both-present container case
each child path extends the parent's diff path through `childPath`; the
claimed global uniqueness of paths does not hold (see the counterexample). -/
theorem c6_path_conventions :
    (∀ (r : JsonNode) (p : String) (d : Nat),
      ((compareNodes none (some r) p d).childDiffs.getD []).map DiffNode.path =
        (r.children.getD []).map JsonNode.path) ∧
    (∀ (l : JsonNode) (p : String) (d : Nat),
      ((compareNodes (some l) none p d).childDiffs.getD []).map DiffNode.path =
        (l.children.getD []).map JsonNode.path) ∧
    (∀ (l r : JsonNode) (p : String) (d : Nat), l.type = r.type → l.type ≠ .primitive →
      ((compareNodes (some l) (some r) p d).childDiffs.getD []).map DiffNode.path =
        (dedupFirst (mapKeys (l.children.getD []) ++ mapKeys (r.children.getD []))).map
          (childPath l.type p)) := by
  refine ⟨fun r p d => ?_, fun l p d => ?_, fun l r p d ht hp => ?_⟩
  · rw [compareNodes_none_some, DiffNode.childDiffs]
    cases hc : r.children with
    | none => rfl
    | some cs =>
      simp only [Option.map, Option.getD]
      rw [List.map_map]
      exact List.map_congr_left (fun c _ => compareNodes_path none (some c) c.path (d + 1))
  · rw [compareNodes_some_none, DiffNode.childDiffs]
    cases hc : l.children with
    | none => rfl
    | some cs =>
      simp only [Option.map, Option.getD]
      rw [List.map_map]
      exact List.map_congr_left (fun c _ => compareNodes_path (some c) none c.path (d + 1))
  · rw [compareNodes_container l r p d ht hp, DiffNode.childDiffs]
    simp only [Option.getD]
    rw [List.map_map]
    exact List.map_congr_left (fun k _ => compareNodes_path _ _ _ _)

/-- Closed instance of the both-present part of `c6_path_conventions`. -/
theorem c6_path_conventions_witness :
    (exNodeL.type = exNodeR.type ∧ exNodeL.type ≠ .primitive) ∧
    ((compareNodes (some exNodeL) (some exNodeR) "root" 0).childDiffs.getD []).map DiffNode.path =
      (dedupFirst (mapKeys (exNodeL.children.getD []) ++ mapKeys (exNodeR.children.getD []))).map
        (childPath exNodeL.type "root") :=
  ⟨⟨by decide, by decide⟩,
   c6_path_conventions.2.2 exNodeL exNodeR "root" 0 (by decide) (by decide)⟩

/-! ### C7: comparing a value against itself yields an all-unchanged tree -/

theorem allUnchanged_diffType (t : DiffNode) (h : allUnchanged t = true) :
    t.diffType = .unchanged := by
  cases t with
  | mk p ln rn dt d ic cd =>
    rw [allUnchanged, Bool.and_eq_true] at h
    rw [DiffNode.diffType]
    exact beq_iff_eq.1 h.1

theorem allUnchangedList_of_forall (cs : List DiffNode)
    (h : ∀ c ∈ cs, allUnchanged c = true) : allUnchangedList cs = true := by
  induction cs with
  | nil => rfl
  | cons c cs ih =>
    rw [allUnchangedList, Bool.and_eq_true]
    exact ⟨h c (List.mem_cons_self c cs), ih (fun x hx => h x (List.mem_cons_of_mem c hx))⟩

theorem compare_self_allUnchanged :
    ∀ (n : Nat) (t : JsonNode) (p : String) (d : Nat), sizeOf t ≤ n →
      allUnchanged (compareNodes (some t) (some t) p d) = true := by
  intro n
  induction n with
  | zero =>
    intro t p d h
    have := jsonNode_sizeOf_pos t
    omega
  | succ n ih =>
    intro t p d h
    by_cases hp : t.type = .primitive
    · rw [compareNodes_primitive t t p d rfl hp, if_pos rfl]
      rfl
    · rw [compareNodes_container t t p d rfl hp]
      have hall : ∀ c ∈ (dedupFirst (mapKeys (t.children.getD []) ++
            mapKeys (t.children.getD []))).map
          (fun k => compareNodes (mapGet (t.children.getD []) k)
            (mapGet (t.children.getD []) k) (childPath t.type p k) (d + 1)),
          allUnchanged c = true := by
        intro c hc
        rcases List.mem_map.1 hc with ⟨k, hk, rfl⟩
        cases hm : mapGet (t.children.getD []) k with
        | none => rw [compareNodes_none_none]; rfl
        | some ch =>
          apply ih
          have hcm : ch ∈ t.children.getD [] := mapGet_mem hm
          have hlt : sizeOf ch < sizeOf t := by
            cases hch : t.children with
            | none => rw [hch] at hcm; simp at hcm
            | some cs =>
              rw [hch] at hcm
              simp at hcm
              exact sizeOf_lt_of_mem_children hch hcm
          omega
      have hany : ((dedupFirst (mapKeys (t.children.getD []) ++
            mapKeys (t.children.getD []))).map
          (fun k => compareNodes (mapGet (t.children.getD []) k)
            (mapGet (t.children.getD []) k) (childPath t.type p k) (d + 1))).any
          (fun c => c.diffType ≠ .unchanged) = false := by
        rw [List.any_eq_false]
        intro c hc
        have := allUnchanged_diffType c (hall c hc)
        simp [this]
      rw [hany, if_neg Bool.false_ne_true]
      rw [allUnchanged, Bool.and_eq_true]
      refine ⟨rfl, ?_⟩
      rw [allUnchangedKids]
      exact allUnchangedList_of_forall _ hall

/-- C7: for every parsed value `v`, comparing `buildJsonTree v "root" "" 0
true` against a tree built identically from the same `v` yields a diff tree
in which every node has `diffType = unchanged`. -/
theorem c7_build_compare_idempotent (v : Json) :
    allUnchanged (compareNodes (some (buildJsonTree v "root" "" 0 true))
      (some (buildJsonTree v "root" "" 0 true)) "root" 0) = true :=
  compare_self_allUnchanged (sizeOf (buildJsonTree v "root" "" 0 true)) _ "root" 0 le_rfl

/-! ### C3: the stats walk counts exactly the leaf-level differences -/

theorem sizeOf_lt_of_mem_childDiffs {c : DiffNode} {cs : List DiffNode} {t : DiffNode}
    (h : t.childDiffs = some cs) (hm : c ∈ cs) : sizeOf c < sizeOf t := by
  have h1 : sizeOf c < sizeOf cs := List.sizeOf_lt_of_mem hm
  cases t with
  | mk p ln rn dt d ic cd =>
    simp [DiffNode.childDiffs] at h
    subst h
    simp
    omega

theorem diffNode_sizeOf_pos (t : DiffNode) : 1 ≤ sizeOf t := by
  cases t
  simp <;> omega

theorem statsSelf_eq (t : DiffNode) :
    statsSelf t = ⟨if isAddedLeaf t then 1 else 0,
                   if isRemovedLeaf t then 1 else 0,
                   if isChangedLeaf t then 1 else 0⟩ := by
  cases t with
  | mk p ln rn dt d ic cd =>
    cases dt <;> cases cd <;> cases ic <;>
      simp [statsSelf, isAddedLeaf, isRemovedLeaf, isChangedLeaf,
        DiffNode.diffType, DiffNode.childDiffs, DiffNode.isCollapsible]

theorem statsList_spec (cs : List DiffNode)
    (h : ∀ c ∈ cs, stats c = ⟨(allNodes c).countP isAddedLeaf,
      (allNodes c).countP isRemovedLeaf, (allNodes c).countP isChangedLeaf⟩) :
    statsList cs = ⟨(allNodesList cs).countP isAddedLeaf,
      (allNodesList cs).countP isRemovedLeaf, (allNodesList cs).countP isChangedLeaf⟩ := by
  induction cs with
  | nil => rfl
  | cons c cs ih =>
    rw [statsList, allNodesList]
    rw [h c (List.mem_cons_self c cs), ih (fun x hx => h x (List.mem_cons_of_mem c hx))]
    simp [addStats, List.countP_append]

theorem stats_spec_aux :
    ∀ (n : Nat) (t : DiffNode), sizeOf t ≤ n →
      stats t = ⟨(allNodes t).countP isAddedLeaf,
        (allNodes t).countP isRemovedLeaf, (allNodes t).countP isChangedLeaf⟩ := by
  intro n
  induction n with
  | zero =>
    intro t h
    have := diffNode_sizeOf_pos t
    omega
  | succ n ih =>
    intro t h
    cases t with
    | mk p ln rn dt d ic cd =>
      rw [stats, allNodes, statsSelf_eq]
      cases cd with
      | none =>
        rw [statsKids, allNodesKids]
        simp [addStats, List.countP_cons, List.countP_nil]
      | some cs =>
        rw [statsKids, allNodesKids]
        rw [statsList_spec cs (fun c hc => by
          apply ih
          have hlt : sizeOf c < sizeOf (DiffNode.mk p ln rn dt d ic (some cs)) :=
            sizeOf_lt_of_mem_childDiffs (by rw [DiffNode.childDiffs]) hc
          omega)]
        simp [addStats, List.countP_cons, Nat.add_comm]

/-- C3: the stats walk over the full tree returns exactly the number of
`added` leaves (`diffType = added`, `childDiffs` undefined), `removed`
leaves, and non-collapsible `changed` nodes; in particular for left
`\x7b\x7d` and right `\x7b"b": [1, 2]\x7d` it returns
`added = 2, removed = 0, changed = 0`. -/
theorem c3_stats_leaf_counts :
    (∀ t : DiffNode,
      stats t = ⟨(allNodes t).countP isAddedLeaf,
        (allNodes t).countP isRemovedLeaf, (allNodes t).countP isChangedLeaf⟩) ∧
    stats (compareNodes (some (buildJsonTree (Json.obj []) "root" "" 0 true))
      (some (buildJsonTree (Json.obj [("b", Json.arr [Json.num 1, Json.num 2])]) "root" "" 0 true))
      "root" 0) = ⟨2, 0, 0⟩ := by
  constructor
  · exact fun t => stats_spec_aux (sizeOf t) t le_rfl
  · rw [compareNodes_eval]
    decide

/-! ### C4: flattening with the empty collapse set is the full pre-order -/

theorem flattenList_eq_preorder (cs : List DiffNode)
    (h : ∀ c ∈ cs, flattenNode [] c = preorderRows c) :
    flattenList [] cs = preorderRowsList cs := by
  induction cs with
  | nil => rfl
  | cons c cs ih =>
    rw [flattenList, preorderRowsList, h c (List.mem_cons_self c cs),
      ih (fun x hx => h x (List.mem_cons_of_mem c hx))]

theorem flatten_empty_aux :
    ∀ (n : Nat) (t : DiffNode), sizeOf t ≤ n → flattenNode [] t = preorderRows t := by
  intro n
  induction n with
  | zero => intro t h; have := diffNode_sizeOf_pos t; omega
  | succ n ih =>
    intro t h
    cases t with
    | mk p ln rn dt d ic cd =>
      rw [flattenNode, preorderRows]
      cases cd with
      | none => simp [flattenKids, preorderRowsKids]
      | some cs =>
        have hk := flattenList_eq_preorder cs (fun c hc => ih c (by
          have hlt : sizeOf c < sizeOf (DiffNode.mk p ln rn dt d ic (some cs)) :=
            sizeOf_lt_of_mem_childDiffs (by rw [DiffNode.childDiffs]) hc
          omega))
        simp [flattenKids, preorderRowsKids, hk]

theorem preorderList_countP (f : FlatDiffRow → Bool) (g : DiffNode → Nat)
    (gl : List DiffNode → Nat) (hnil : gl [] = 0)
    (hcons : ∀ c cs, gl (c :: cs) = g c + gl cs)
    (cs : List DiffNode) (h : ∀ c ∈ cs, (preorderRows c).countP f = g c) :
    (preorderRowsList cs).countP f = gl cs := by
  induction cs with
  | nil => rw [preorderRowsList, hnil]; rfl
  | cons c cs ih =>
    rw [preorderRowsList, hcons, List.countP_append,
      h c (List.mem_cons_self c cs), ih (fun x hx => h x (List.mem_cons_of_mem c hx))]

theorem preorder_node_count_aux :
    ∀ (n : Nat) (t : DiffNode), sizeOf t ≤ n →
      (preorderRows t).countP (fun r => r.rowType == .node) = nodeCount t := by
  intro n
  induction n with
  | zero => intro t h; have := diffNode_sizeOf_pos t; omega
  | succ n ih =>
    intro t h
    cases t with
    | mk p ln rn dt d ic cd =>
      rw [preorderRows, nodeCount, List.countP_cons]
      cases cd with
      | none =>
        rw [preorderRowsKids, nodeCountKids]
        cases ic <;> simp [List.countP_cons]
      | some cs =>
        rw [preorderRowsKids, nodeCountKids, List.countP_append]
        rw [preorderList_countP (fun r => r.rowType == .node) nodeCount nodeCountList rfl
          (fun c cs => rfl) cs (fun c hc => ih c (by
            have hlt : sizeOf c < sizeOf (DiffNode.mk p ln rn dt d ic (some cs)) :=
              sizeOf_lt_of_mem_childDiffs (by rw [DiffNode.childDiffs]) hc
            omega))]
        cases ic <;> simp [List.countP_cons, Nat.add_comm]

theorem preorder_close_count_aux :
    ∀ (n : Nat) (t : DiffNode), sizeOf t ≤ n →
      (preorderRows t).countP (fun r => r.rowType == .close) = collapsibleCount t := by
  intro n
  induction n with
  | zero => intro t h; have := diffNode_sizeOf_pos t; omega
  | succ n ih =>
    intro t h
    cases t with
    | mk p ln rn dt d ic cd =>
      rw [preorderRows, collapsibleCount, List.countP_cons]
      cases cd with
      | none =>
        rw [preorderRowsKids, collapsibleCountKids]
        cases ic <;> simp [List.countP_cons]
      | some cs =>
        rw [preorderRowsKids, collapsibleCountKids, List.countP_append]
        rw [preorderList_countP (fun r => r.rowType == .close) collapsibleCount
          collapsibleCountList rfl (fun c cs => rfl) cs (fun c hc => ih c (by
            have hlt : sizeOf c < sizeOf (DiffNode.mk p ln rn dt d ic (some cs)) :=
              sizeOf_lt_of_mem_childDiffs (by rw [DiffNode.childDiffs]) hc
            omega))]
        cases ic <;> simp [List.countP_cons, Nat.add_comm]

/-- C4: flattening with the empty collapse set produces exactly the
pre-order row sequence described by the spec — one `node` row per tree node,
each preceding its subtree's rows, with one `close` row per collapsible node
immediately after that node's subtree — so it has exactly `nodeCount t`
`node` rows and `collapsibleCount t` `close` rows. -/
theorem c4_flatten_round_trip :
    (∀ t : DiffNode, flatDiffRows t [] = preorderRows t) ∧
    (∀ t : DiffNode, (flatDiffRows t []).countP (fun r => r.rowType == .node) = nodeCount t) ∧
    (∀ t : DiffNode, (flatDiffRows t []).countP (fun r => r.rowType == .close) =
      collapsibleCount t) := by
  have he : ∀ t : DiffNode, flatDiffRows t [] = preorderRows t :=
    fun t => flatten_empty_aux (sizeOf t) t le_rfl
  refine ⟨he, fun t => ?_, fun t => ?_⟩
  · rw [he t]
    exact preorder_node_count_aux (sizeOf t) t le_rfl
  · rw [he t]
    exact preorder_close_count_aux (sizeOf t) t le_rfl

/-! ### C9: added empty containers escape the stats count -/

/-- C9: for left `\x7b\x7d` and right `\x7b"a": \x7b\x7d\x7d` the root diff
is `changed` while the stats are all zero (the added container has
`childDiffs` defined as an empty sequence, so it fails the leaf tests), and
the consuming layer's all-zero check then classifies the pair as identical;
in general a one-sided `added` node has `childDiffs` defined exactly when
the underlying node has `children` defined. -/
theorem c9_empty_container_blind_spot :
    ((compareNodes (some (buildJsonTree (Json.obj []) "root" "" 0 true))
        (some (buildJsonTree (Json.obj [("a", Json.obj [])]) "root" "" 0 true))
        "root" 0).diffType = .changed ∧
     stats (compareNodes (some (buildJsonTree (Json.obj []) "root" "" 0 true))
        (some (buildJsonTree (Json.obj [("a", Json.obj [])]) "root" "" 0 true))
        "root" 0) = ⟨0, 0, 0⟩ ∧
     rendersIdentical (stats (compareNodes (some (buildJsonTree (Json.obj []) "root" "" 0 true))
        (some (buildJsonTree (Json.obj [("a", Json.obj [])]) "root" "" 0 true))
        "root" 0)) = true) ∧
    (∀ (r : JsonNode) (p : String) (d : Nat),
      ((compareNodes none (some r) p d).childDiffs).isSome = (r.children).isSome) := by
  constructor
  · rw [compareNodes_eval]
    exact ⟨by decide, by decide, by decide⟩
  · intro r p d
    rw [compareNodes_none_some, DiffNode.childDiffs]
    cases r.children <;> rfl

/-! ### C5: a parsed falsy scalar is treated as an absent document -/

/-- C5 counterexample: with a valid left document that is the literal `null`
scalar and a valid right document `1`, the produced diff root is `added`
with no `leftNode` at all — the left side is treated exactly like an absent
document, not as a present primitive tree; and two valid literal-`null`
documents produce no diff tree at all. -/
theorem c5_counterexample :
    (diffTree ⟨true, none, Json.null⟩ ⟨true, none, Json.num 1⟩).map
      (fun t => (t.diffType, t.leftNode.isNone)) = some (DiffType.added, true) ∧
    (diffTree ⟨true, none, Json.null⟩ ⟨true, none, Json.null⟩).isNone = true := by
  constructor
  · have hd : diffTree ⟨true, none, Json.null⟩ ⟨true, none, Json.num 1⟩ =
        some (compareNodes none (some (buildJsonTree (Json.num 1) "root" "" 0 true)) "root" 0) := by
      simp [diffTree, isTruthy]
    rw [hd, Option.map_some', compareNodes_none_some]
    rfl
  · decide

/-- C5 amended: a diff tree is produced iff both sides are valid and at
least one side's parsed value is JS-truthy; a parsed `null` scalar is falsy,
builds no `ValueNode`, and is indistinguishable from an absent document, so
literal `null` on the left against a present right is diffed one-sided
(`leftNode` absent at the root). -/
theorem c5_amended :
    (∀ lv rv : ParseResult, (diffTree lv rv).isSome =
      (lv.valid && rv.valid && (isTruthy lv.parsed || isTruthy rv.parsed))) ∧
    (diffTree ⟨true, none, Json.null⟩ ⟨true, none, Json.num 1⟩).map
      (fun t => t.leftNode) = some none := by
  constructor
  · rintro ⟨lval, lerr, lparsed⟩ ⟨rval, rerr, rparsed⟩
    cases lval <;> cases rval <;>
      cases hl : isTruthy lparsed <;> cases hr : isTruthy rparsed <;>
        simp [diffTree, hl, hr]
  · have hd : diffTree ⟨true, none, Json.null⟩ ⟨true, none, Json.num 1⟩ =
        some (compareNodes none (some (buildJsonTree (Json.num 1) "root" "" 0 true)) "root" 0) := by
      simp [diffTree, isTruthy]
    rw [hd, Option.map_some', compareNodes_none_some]
    rfl

/-! ### C8: minimap marker bands -/

/-- C8: in the flattened row list of length `n`, the row at position `i`
gets no minimap marker when its `diffType` is `unchanged`, and otherwise a
band with `top = i / n * 100` percent and `height = max (100 / n) 2`
percent. -/
theorem c8_minimap_markers (rows : List FlatDiffRow) (i : Nat) :
    (minimapMarkers rows)[i]? = (rows[i]?).map (fun row =>
      if row.diffType = .unchanged then none
      else some ⟨((i : ℚ) / (rows.length : ℚ)) * 100, max (100 / (rows.length : ℚ)) 2⟩) := by
  rw [minimapMarkers, List.getElem?_map, List.getElem?_enum]
  cases rows[i]? <;> rfl

/-! ### C10: validateJson retries with unescaped quotes -/

/-- C10: on non-blank input where the first `JSON.parse` fails,
`validateJson` retries on the text with every backslash-quote replaced by a
plain quote; a successful retry is reported valid with the re-parsed value,
and only when both attempts fail is the result invalid, carrying the first
attempt's error message. -/
theorem c10_validate_retry (jsonParse : String → Except String Json) (json : String)
    (e : String) (hb : jsBlank json = false) (hf : jsonParse json = .error e) :
    validateJson jsonParse json =
      match jsonParse (unescapeQuotes json) with
      | .ok parsed => ⟨true, none, parsed⟩
      | .error _ => ⟨false, some e, .null⟩ := by
  rw [validateJson, if_neg (by simp [hb]), hf]

/-- Closed instance of `c10_validate_retry`: the text `\"a\"` fails the
demo parser as-is, and after unescaping it parses as the string scalar
`"a"`, so validation succeeds with that value. -/
theorem c10_validate_retry_witness :
    (jsBlank "\\\"a\\\"" = false ∧
     (fun s => if s = "\"a\"" then Except.ok (Json.str "a")
       else Except.error "bad") "\\\"a\\\"" = Except.error "bad") ∧
    validateJson (fun s => if s = "\"a\"" then Except.ok (Json.str "a")
      else Except.error "bad") "\\\"a\\\"" = ⟨true, none, Json.str "a"⟩ :=
  ⟨⟨by decide, rfl⟩, by
    rw [c10_validate_retry (fun s => if s = "\"a\"" then Except.ok (Json.str "a")
      else Except.error "bad") "\\\"a\\\"" "bad" (by decide) rfl]
    rfl⟩

/-! ### C2: added/removed symmetry holds only up to child ordering -/

/-- C2 counterexample: for left `\x7b"a": 1\x7d` and right `\x7b"b": 2\x7d`,
swapping `compareNodes(left, right)` does not reproduce
`compareNodes(right, left)`: the two directions enumerate the key union in
different orders (`a` then `b` versus `b` then `a`), so the children
sequences differ. -/
theorem c2_counterexample :
    swapDiff (compareNodes (some (buildJsonTree (Json.obj [("a", Json.num 1)]) "root" "" 0 true))
        (some (buildJsonTree (Json.obj [("b", Json.num 2)]) "root" "" 0 true)) "root" 0) ≠
      compareNodes (some (buildJsonTree (Json.obj [("b", Json.num 2)]) "root" "" 0 true))
        (some (buildJsonTree (Json.obj [("a", Json.num 1)]) "root" "" 0 true)) "root" 0 := by
  rw [compareNodes_eval, compareNodes_eval]
  intro h
  exact absurd (congrArg (fun t => (t.childDiffs.getD []).map DiffNode.path) h) (by decide)

theorem SwapPerm.mk_eq {p : String} {ln rn : Option JsonNode} {dt dt' : DiffType} {dep : Nat}
    {ic : Bool} {cd cd' : Option (List DiffNode)} (hdt : dt' = swapType dt)
    (hkids : SwapKids cd cd') :
    SwapPerm (.mk p ln rn dt dep ic cd) (.mk p rn ln dt' dep ic cd') :=
  hdt ▸ SwapPerm.mk p ln rn dt dep ic cd cd' hkids

theorem SwapPerm.diffType_eq {x y : DiffNode} (h : SwapPerm x y) :
    y.diffType = swapType x.diffType := by
  cases h
  rfl

theorem swapEach_map {α : Type} (ks : List α) (F G : α → DiffNode)
    (h : ∀ k ∈ ks, SwapPerm (F k) (G k)) : SwapEach (ks.map F) (ks.map G) := by
  induction ks with
  | nil => exact SwapEach.nil
  | cons k ks ih =>
    exact SwapEach.cons _ _ _ _ (h k (List.mem_cons_self k ks))
      (ih (fun x hx => h x (List.mem_cons_of_mem k hx)))

theorem swapEach_any :
    ∀ {xs zs : List DiffNode}, SwapEach xs zs →
      xs.any (fun c => c.diffType ≠ .unchanged) = zs.any (fun c => c.diffType ≠ .unchanged) := by
  intro xs
  induction xs with
  | nil =>
    intro zs h
    cases h
    rfl
  | cons x xs ih =>
    intro zs h
    cases h with
    | cons _ y _ ys hxy hxs =>
      rw [List.any_cons, List.any_cons, ih hxs]
      have hy := hxy.diffType_eq
      have hdec : (decide (y.diffType ≠ DiffType.unchanged)) =
          (decide (x.diffType ≠ DiffType.unchanged)) := by
        rw [hy]
        cases x.diffType <;> rfl
      rw [hdec]

theorem perm_any (xs ys : List DiffNode) (h : xs.Perm ys) :
    xs.any (fun c => c.diffType ≠ .unchanged) = ys.any (fun c => c.diffType ≠ .unchanged) := by
  cases hx : xs.any (fun c => c.diffType ≠ .unchanged) with
  | false =>
    cases hy : ys.any (fun c => c.diffType ≠ .unchanged) with
    | false => rfl
    | true =>
      exfalso
      rcases List.any_eq_true.1 hy with ⟨a, ha, hp⟩
      have hax : a ∈ xs := (h.mem_iff).2 ha
      have hxt : xs.any (fun c => c.diffType ≠ .unchanged) = true :=
        List.any_eq_true.2 ⟨a, hax, hp⟩
      rw [hx] at hxt
      exact Bool.false_ne_true hxt
  | true =>
    rcases List.any_eq_true.1 hx with ⟨a, ha, hp⟩
    have hay : a ∈ ys := (h.mem_iff).1 ha
    have hyt : ys.any (fun c => c.diffType ≠ .unchanged) = true :=
      List.any_eq_true.2 ⟨a, hay, hp⟩
    rw [hyt]

theorem dedupFirst_comm_perm (xs ys : List String) :
    (dedupFirst (xs ++ ys)).Perm (dedupFirst (ys ++ xs)) := by
  apply (List.perm_ext_iff_of_nodup (nodup_dedupFirst _) (nodup_dedupFirst _)).2
  intro a
  rw [mem_dedupFirst, mem_dedupFirst, List.mem_append, List.mem_append]
  tauto

theorem swapPerm_aux :
    ∀ (n : Nat) (l r : Option JsonNode) (p : String) (d : Nat),
      sizeOf l + sizeOf r ≤ n → SwapPerm (compareNodes l r p d) (compareNodes r l p d) := by
  intro n
  induction n with
  | zero =>
    intro l r p d h
    have h1 := sizeOf_option_pos l
    have h2 := sizeOf_option_pos r
    omega
  | succ n ih =>
    intro l r p d h
    match l, r with
    | none, none =>
      rw [compareNodes_none_none]
      exact SwapPerm.mk_eq rfl SwapKids.none
    | none, some r =>
      rw [compareNodes_none_some, compareNodes_some_none]
      refine SwapPerm.mk_eq rfl ?_
      cases hc : r.children with
      | none => exact SwapKids.none
      | some cs =>
        simp only [Option.map_some']
        refine SwapKids.some _ _
          (cs.map (fun c => compareNodes (some c) none c.path (d + 1))) ?_ (List.Perm.refl _)
        refine swapEach_map cs _ _ (fun c hcm => ?_)
        apply ih
        have hlt : sizeOf c < sizeOf r := sizeOf_lt_of_mem_children hc hcm
        simp at h ⊢
        omega
    | some l, none =>
      rw [compareNodes_some_none, compareNodes_none_some]
      refine SwapPerm.mk_eq rfl ?_
      cases hc : l.children with
      | none => exact SwapKids.none
      | some cs =>
        simp only [Option.map_some']
        refine SwapKids.some _ _
          (cs.map (fun c => compareNodes none (some c) c.path (d + 1))) ?_ (List.Perm.refl _)
        refine swapEach_map cs _ _ (fun c hcm => ?_)
        apply ih
        have hlt : sizeOf c < sizeOf l := sizeOf_lt_of_mem_children hc hcm
        simp at h ⊢
        omega
    | some l, some r =>
      by_cases ht : l.type = r.type
      · by_cases hp : l.type = .primitive
        · rw [compareNodes_primitive l r p d ht hp,
            compareNodes_primitive r l p d ht.symm (ht ▸ hp)]
          by_cases heq : jsonStringify l.value = jsonStringify r.value
          · rw [if_pos heq, if_pos heq.symm]
            exact SwapPerm.mk_eq rfl SwapKids.none
          · rw [if_neg heq, if_neg (fun hh => heq hh.symm)]
            exact SwapPerm.mk_eq rfl SwapKids.none
        · have hp' : r.type ≠ .primitive := ht ▸ hp
          rw [compareNodes_container l r p d ht hp,
            compareNodes_container r l p d ht.symm hp']
          rw [← ht]
          have hswap : ∀ k ∈ dedupFirst (mapKeys (l.children.getD []) ++
              mapKeys (r.children.getD [])),
              SwapPerm (compareNodes (mapGet (l.children.getD []) k)
                  (mapGet (r.children.getD []) k) (childPath l.type p k) (d + 1))
                (compareNodes (mapGet (r.children.getD []) k)
                  (mapGet (l.children.getD []) k) (childPath l.type p k) (d + 1)) := by
            intro k hk
            apply ih
            have h1 := sizeOf_mapGet_lt l k
            have h2 := sizeOf_mapGet_lt r k
            simp at h1 h2 h ⊢
            omega
          have heach : SwapEach
              ((dedupFirst (mapKeys (l.children.getD []) ++ mapKeys (r.children.getD []))).map
                (fun k => compareNodes (mapGet (l.children.getD []) k)
                  (mapGet (r.children.getD []) k) (childPath l.type p k) (d + 1)))
              ((dedupFirst (mapKeys (l.children.getD []) ++ mapKeys (r.children.getD []))).map
                (fun k => compareNodes (mapGet (r.children.getD []) k)
                  (mapGet (l.children.getD []) k) (childPath l.type p k) (d + 1))) :=
            swapEach_map _ _ _ hswap
          have hzs : ((dedupFirst (mapKeys (l.children.getD []) ++
                mapKeys (r.children.getD []))).map
                (fun k => compareNodes (mapGet (r.children.getD []) k)
                  (mapGet (l.children.getD []) k) (childPath l.type p k) (d + 1))).Perm
              ((dedupFirst (mapKeys (r.children.getD []) ++ mapKeys (l.children.getD []))).map
                (fun k => compareNodes (mapGet (r.children.getD []) k)
                  (mapGet (l.children.getD []) k) (childPath l.type p k) (d + 1))) :=
            (dedupFirst_comm_perm _ _).map _
          have hany : ((dedupFirst (mapKeys (l.children.getD []) ++
                mapKeys (r.children.getD []))).map
                (fun k => compareNodes (mapGet (l.children.getD []) k)
                  (mapGet (r.children.getD []) k) (childPath l.type p k) (d + 1))).any
              (fun c => c.diffType ≠ .unchanged) =
              ((dedupFirst (mapKeys (r.children.getD []) ++ mapKeys (l.children.getD []))).map
                (fun k => compareNodes (mapGet (r.children.getD []) k)
                  (mapGet (l.children.getD []) k) (childPath l.type p k) (d + 1))).any
              (fun c => c.diffType ≠ .unchanged) := by
            rw [swapEach_any heach]
            exact perm_any _ _ hzs
          refine SwapPerm.mk_eq ?_ (SwapKids.some _ _ _ heach hzs)
          rw [← hany]
          have hsw : ∀ b : Bool, (if b = true then DiffType.changed else DiffType.unchanged) =
              swapType (if b = true then DiffType.changed else DiffType.unchanged) := by
            intro b
            cases b <;> rfl
          exact hsw _
      · rw [compareNodes_type_mismatch l r p d ht,
          compareNodes_type_mismatch r l p d (fun hh => ht hh.symm)]
        exact SwapPerm.mk_eq rfl SwapKids.none

/-- C2 amended: `compareNodes(A, B, p, d)` and `compareNodes(B, A, p, d)`
agree node for node after swapping `added`↔`removed` and
`leftNode`↔`rightNode`, but only up to a per-node permutation of each
`childDiffs` sequence: the two directions enumerate the key union in
different orders (first argument's keys first), so the ordering is not
identical in general (see the counterexample). -/
theorem c2_swap_symmetry_up_to_perm (l r : Option JsonNode) (p : String) (d : Nat) :
    SwapPerm (compareNodes l r p d) (compareNodes r l p d) :=
  swapPerm_aux (sizeOf l + sizeOf r) l r p d le_rfl
